import Mathlib

/-!
Verification development for the GCC message generator (`app.py`).

The Python source is shallowly embedded: strings are lists of characters
(`Str`), the regex substitutions of `enforce_constraints` are modelled by
explicit left-to-right scanning functions with the same matching semantics
(case folding is ASCII, as all inputs of interest are ASCII), the Tavily
search and the Groq draft call are modelled as oracle functions, and
Streamlit session state is threaded explicitly.
-/

set_option maxRecDepth 1000000

namespace GccMsgGen

/-- Python strings are modelled as lists of characters. -/
abbrev Str := List Char

/-- Python regex `\s` / `str.strip` whitespace class (ASCII part). -/
def isPySpace (c : Char) : Bool :=
  c = ' ' || c = '\t' || c = '\n' || c = '\r' || c = '\x0b' || c = '\x0c'

/-- Python regex word character `\w` (ASCII part). -/
def isWordChar (c : Char) : Bool := c.isAlphanum || c = '_'

/-- Wordness of an optional character; a missing character (string edge)
counts as a non-word character, as for regex `\b`. -/
def optWord : Option Char → Bool
  | none => false
  | some c => isWordChar c

/-- Regex `\b`: a word boundary lies between two characters exactly when
their wordness differs. -/
def bdry (a b : Option Char) : Bool := optWord a != optWord b

/-- `str.lower` / the effect of `re.IGNORECASE`, ASCII case folding. -/
def lowerStr (s : Str) : Str := s.map Char.toLower

/-- Strip a case-insensitive literal occurrence of `w` from the front of
`s`, returning the remainder. -/
def ciStripPrefix : Str → Str → Option Str
  | [], s => some s
  | _ :: _, [] => none
  | a :: w, b :: s => if a.toLower = b.toLower then ciStripPrefix w s else none

theorem ciStripPrefix_some_length {w s r : Str}
    (h : ciStripPrefix w s = some r) : s.length = w.length + r.length := by
  induction w generalizing s r with
  | nil => simp [ciStripPrefix] at h; simp [h]
  | cons a w ih =>
    cases s with
    | nil => simp [ciStripPrefix] at h
    | cons b s =>
      simp only [ciStripPrefix] at h
      split at h
      · have := ih h
        simp [List.length_cons, this]
        omega
      · exact absurd h (by simp)

/-- Python `needle in hay` (substring test). -/
def hasSubstr (hay needle : Str) : Bool :=
  match hay with
  | [] => needle.isEmpty
  | _ :: t => needle.isPrefixOf hay || hasSubstr t needle

/-- Python `hay.find(needle)`: index of the leftmost occurrence. -/
def findSub (hay needle : Str) : Option Nat :=
  match hay with
  | [] => if needle.isEmpty then some 0 else none
  | _ :: t =>
    if needle.isPrefixOf hay then some 0 else (findSub t needle).map (· + 1)

/-- Python `hay.rfind(c)` for a single character: greatest index, if any. -/
def rfindChar : Str → Char → Option Nat
  | [], _ => none
  | a :: t, c =>
    match rfindChar t c with
    | some j => some (j + 1)
    | none => if a = c then some 0 else none

/-- Case-insensitive substring test (`needle.lower() in hay.lower()`). -/
def ciHasSubstr (hay needle : Str) : Bool :=
  hasSubstr (lowerStr hay) (lowerStr needle)

example : "ab".toList = ['a', 'b'] := rfl
example : hasSubstr "hello world".toList "lo w".toList = true := by decide
example : findSub "abcabc".toList "bc".toList = some 1 := by decide
example : rfindChar "a.b.c".toList '.' = some 3 := by decide
example : ciStripPrefix "AbC".toList "aBcD".toList = some ['D'] := by decide

/-!
## Pass 1/2: `re.sub(r'\b' + word + r'\b', '', message, flags=re.IGNORECASE)`

`wordSubAux` scans the message left to right exactly as `re.sub` does: at
each position it attempts a case-insensitive literal match of `w` framed by
word boundaries (`\b`); on success the match is dropped and scanning resumes
after it, otherwise the character is kept.  `prev` is the character just
before the current position in the *original* string (boundaries are judged
against the input, as in `re`).
-/

def wordSubAux (w : Str) : Nat → Option Char → Str → Str
  | _, _, [] => []
  | 0, _, s => s
  | fuel + 1, prev, c :: t =>
    match ciStripPrefix w (c :: t) with
    | some r =>
      if !w.isEmpty && bdry prev (some c)
          && bdry ((c :: t).take w.length).getLast? r.head? then
        wordSubAux w fuel ((c :: t).take w.length).getLast? r
      else
        c :: wordSubAux w fuel (some c) t
    | none => c :: wordSubAux w fuel (some c) t

/-- One banned-word substitution: `re.sub(r'\b'+w+r'\b', '', s, re.IGNORECASE)`.
The fuel argument (structural-recursion bound) starts at the scanned
string's length, which a left-to-right scan never exhausts. -/
def wordSub (w s : Str) : Str := wordSubAux w s.length none s

/-- The fixed banned-phrase list of `enforce_constraints`, in source order. -/
def prohibited_words : List Str :=
  (["exploring", "interested", "learning", "No easy feat", "Impressive",
    "Noteworthy", "Remarkable", "Fascinating", "Admiring", "Inspiring",
    "No small feat", "No easy task", "Stood out", "rare to see",
    "it's rare to see"]).map String.toList

/-- Pass 1: strip every banned phrase, sequentially in list order. -/
def stripProhibited (m : Str) : Str :=
  prohibited_words.foldl (fun acc w => wordSub w acc) m

/-- Pass 2: redact the company / designation string when supplied and
non-empty (`if company:` in Python is false for `None` and `""`). -/
def redactOpt (f : Option Str) (m : Str) : Str :=
  match f with
  | none => m
  | some c => if c.isEmpty then m else wordSub c m

/-!
## Pass 3: `re.sub(r'\s+', ' ', message).strip()`
-/

def collapseAux : Bool → Str → Str
  | _, [] => []
  | insp, c :: t =>
    if isPySpace c then
      if insp then collapseAux true t else ' ' :: collapseAux true t
    else c :: collapseAux false t

/-- Whitespace normalization: collapse each whitespace run to one space,
then strip both ends. -/
def normalizeWS (s : Str) : Str :=
  (((collapseAux false s).dropWhile isPySpace).reverse.dropWhile isPySpace).reverse

/-!
## Pass 4: `re.sub(r'\n*(Best|Regards|Thanks|Sincerely),?\s*\n*Kingshuk.*$', '', message, flags=re.IGNORECASE)`

The pattern is matched at each position from the left.  A match consumes:
optional newlines, one closing word (the group is *not* optional), an
optional comma, a whitespace run, the sender name, and then `.*$` — which
reaches either the end of the string or the position just before a single
final newline.  The leftmost match (and everything after it except a
possibly surviving final newline) is removed.
-/

def closing_words : List Str := (["Best", "Regards", "Thanks", "Sincerely"]).map String.toList

def tryClosings : List Str → Str → Option Str
  | [], _ => none
  | w :: ws, s =>
    match ciStripPrefix w s with
    | some r => some r
    | none => tryClosings ws s

/-- The optional comma `,?`. -/
def commaDrop (s : Str) : Str :=
  match s with
  | c :: t => if c = ',' then t else c :: t
  | [] => []

/-- Match the structural part `\n*(closing),?\s*\n*Kingshuk` at the head of
`s`, returning the remainder after the sender name. -/
def sigHead (s : Str) : Option Str :=
  match tryClosings closing_words (s.dropWhile (· = '\n')) with
  | none => none
  | some s2 =>
    ciStripPrefix "Kingshuk".toList
      (((commaDrop s2).dropWhile isPySpace).dropWhile (· = '\n'))

/-- `.*$` succeeds on the remainder iff it holds no newline, or only a
single final newline (which then survives the substitution). -/
def sigTailOk (r : Str) : Bool :=
  r.all (· ≠ '\n') || (!r.isEmpty && r.dropLast.all (· ≠ '\n'))

def sigMatchHere (s : Str) : Bool :=
  match sigHead s with
  | some r => sigTailOk r
  | none => false

/-- Pass 4: delete from the leftmost signature match to the end of the
string (keeping a final newline the anchor `$` stopped before). -/
def stripSignature : Str → Str
  | [] => []
  | c :: t =>
    match sigHead (c :: t) with
    | some r =>
      if r.all (· ≠ '\n') then []
      else if !r.isEmpty && r.dropLast.all (· ≠ '\n') then ['\n']
      else c :: stripSignature t
    | none => c :: stripSignature t

/-!
## Pass 5: call-to-action enforcement
-/

def wltc : Str := "Would love to connect".toList
def wltcDot : Str := "Would love to connect.".toList

/-- The canonical connect phrases, checked with the *case-sensitive*
Python `in` operator. -/
def connection_phrases : List Str :=
  (["Would love to connect", "Would be glad to connect", "I'd love to connect",
    "Let's connect"]).map String.toList

/-- `hay.find(needle)` with Python's `-1`-free reading: total via `getD`,
only used under a `hasSubstr` guard. -/
def findSubD (hay needle : Str) : Nat := (findSub hay needle).getD 0

def ensureConnect (m : Str) : Str :=
  if connection_phrases.any (fun p => hasSubstr m p) then m
  else
    match findSub (lowerStr m) "connect".toList with
    | some i =>
      if 0 < i then m.take i ++ wltcDot
      else m ++ "\n\nWould love to connect.".toList
    | none => m ++ "\n\nWould love to connect.".toList

/-!
## Pass 6: upper bound (270) with sentence-aware truncation
-/

def enforceUpper (m : Str) : Str :=
  if m.length ≤ 270 then m
  else if hasSubstr m wltc then
    let mc := m.take (findSubD m wltc)
    let mc2 :=
      if 240 < mc.length then
        match rfindChar (mc.take 240) '.' with
        | some lp => if 0 < lp then mc.take (lp + 1) else mc.take 237 ++ "...".toList
        | none => mc.take 237 ++ "...".toList
      else mc
    mc2 ++ wltcDot
  else
    match rfindChar (m.take 270) '.' with
    | some lp => if 0 < lp then m.take (lp + 1) else m.take 267 ++ "...".toList
    | none => m.take 267 ++ "...".toList

/-!
## Pass 7: lower bound (200) via one filler insertion

`random.choice` over the four fillers is modelled by the explicit index
`pick` (taken modulo the pool size).  `message.split("Would love to
connect")` keeps only `parts[0]` and `parts[1]`; content after a second
occurrence of the phrase is discarded, exactly as in the source.
-/

def enhancement_phrases : List Str :=
  (["I found your perspective particularly insightful.",
    "This offers a fresh take on the challenges we're seeing in the industry.",
    "Your approach to this topic is quite innovative.",
    "This gives me a new perspective on the matter."]).map String.toList

def enforceLower (pick : Nat) (m : Str) : Str :=
  if m.length < 200 then
    let enh := enhancement_phrases.getD (pick % enhancement_phrases.length) []
    if hasSubstr m wltc then
      let a := m.take (findSubD m wltc)
      let rest := m.drop (findSubD m wltc + wltc.length)
      let b := if hasSubstr rest wltc then rest.take (findSubD rest wltc) else rest
      a ++ enh ++ (' ' :: wltc) ++ b
    else m ++ ' ' :: enh
  else m

/-- The message after Passes 1–5; Pass 6's input. -/
def afterConnectPass (m : Str) (company designation : Option Str) : Str :=
  ensureConnect (stripSignature (normalizeWS
    (redactOpt designation (redactOpt company (stripProhibited m)))))

/-- The message after Passes 1–6; Pass 7's input. -/
def enforcePre (m : Str) (company designation : Option Str) : Str :=
  enforceUpper (afterConnectPass m company designation)

/-- `enforce_constraints(message, company, designation)`; `pick` resolves
the `random.choice` of Pass 7. -/
def enforce_constraints (m : Str) (company designation : Option Str)
    (pick : Nat) : Str :=
  enforceLower pick (enforcePre m company designation)

/-!
## `search_content_by_person`

The Tavily client is modelled as an oracle from query strings to either a
failure (an exception) or a list of raw records; the Streamlit session
cache is threaded explicitly, and timestamps are minutes as naturals.  The
model additionally returns the trace of queries issued to the oracle.
-/

/-- The fields of a raw Tavily record that the source reads. -/
structure RawResult where
  title : Str
  content : Str
  url : Str
  published_date : Str
deriving DecidableEq, Repr

/-- The standardized item built by `process_tavily_results`. -/
structure ProcessedItem where
  title : Str
  snippet : Str
  url : Str
  date : Str
  source : Str
deriving DecidableEq, Repr

def process_tavily_results (results : List RawResult) : List ProcessedItem :=
  results.map (fun r =>
    { title := r.title, snippet := r.content, url := r.url,
      date := r.published_date, source := "Tavily Search".toList })

/-- The relevance filter: the lower-cased person name occurs in the
lower-cased body or title. -/
def relevantTo (name : Str) (r : RawResult) : Bool :=
  hasSubstr (lowerStr r.content) (lowerStr name)
    || hasSubstr (lowerStr r.title) (lowerStr name)

/-- URL-dedup plus relevance filter, iterating in arrival order with the
`seen_urls` set.  A falsy (empty) `url` fails the leading truthiness test,
so such records are dropped outright. -/
def dedupResults (name : Str) (seen : List Str) : List RawResult → List RawResult
  | [] => []
  | r :: rest =>
    if !r.url.isEmpty && !seen.contains r.url && relevantTo name r then
      r :: dedupResults name (r.url :: seen) rest
    else dedupResults name seen rest

/-- Python `f"{x}"` of an `Optional[str]`: `None` renders as `"None"`. -/
def optStr : Option Str → Str
  | none => "None".toList
  | some s => s

/-- `cache_key = f"{person_name}_{company}_{designation}_author_content"`. -/
def cacheKey (name : Str) (company designation : Option Str) : Str :=
  name ++ "_".toList ++ optStr company ++ "_".toList ++ optStr designation
    ++ "_author_content".toList

/-- `company.replace(" ", "").lower()`. -/
def noSpacesLower (s : Str) : Str := (s.filter (· ≠ ' ')).map Char.toLower

def quoteStr (s : Str) : Str := '"' :: s ++ ['"']

def companyQueries (name comp : Str) : List Str :=
  [quoteStr name ++ " ".toList ++ quoteStr comp
     ++ " article OR blog OR post OR \"written by\" OR \"authored by\"".toList,
   quoteStr name ++ " ".toList ++ quoteStr comp
     ++ " interview OR podcast OR \"guest post\" OR \"thought leadership\"".toList,
   quoteStr name ++ " ".toList ++ quoteStr comp
     ++ " recent publications OR latest articles OR recent posts".toList,
   quoteStr name ++ " site:".toList ++ noSpacesLower comp ++ ".com".toList]

def personQueries (name : Str) (designation : Option Str) : List Str :=
  [quoteStr name ++ " article OR blog OR post OR \"written by\" OR \"authored by\"".toList,
   quoteStr name ++ " interview OR podcast OR \"guest post\" OR \"thought leadership\"".toList,
   quoteStr name ++ " recent publications OR latest articles OR recent posts".toList]
  ++ (match designation with
      | some d => [quoteStr name ++ " ".toList ++ quoteStr d ++ " recent publications".toList]
      | none => [])

def generalQuery (name : Str) (company designation : Option Str) : Str :=
  let s := name ++ " ".toList ++ optStr company ++ " ".toList ++ optStr designation
  ((s.dropWhile isPySpace).reverse.dropWhile isPySpace).reverse

/-- A search oracle: each `client.search(query, ...)` either raises or
returns the record list of the response. -/
abbrev SearchOracle := Str → Except Unit (List RawResult)

structure CacheEntry where
  results : List ProcessedItem
  timestamp : Nat
deriving DecidableEq, Repr

structure SearchState where
  cache : List (Str × CacheEntry)
deriving DecidableEq, Repr

def lookupCache (k : Str) : List (Str × CacheEntry) → Option CacheEntry
  | [] => none
  | (k', e) :: rest => if k' = k then some e else lookupCache k rest

def putCache (k : Str) (e : CacheEntry) (st : SearchState) : SearchState :=
  ⟨(k, e) :: st.cache⟩

/-- Run a batch of sub-queries: a failing query is skipped (`except ...
continue`), a successful query with a non-empty (truthy) result list
extends the accumulator. -/
def collectResults (oracle : SearchOracle) (qs : List Str) : List RawResult :=
  qs.foldl (fun acc q =>
    match oracle q with
    | .ok rs => if rs.isEmpty then acc else acc ++ rs
    | .error _ => acc) []

/-- The person-only phase (lines 150–217): person queries, then the
general-query fallback, then the unconditional cache write. -/
def personPhase (oracle : SearchOracle) (now : Nat) (name : Str)
    (company designation : Option Str) (st : SearchState) (key : Str)
    (issued : List Str) : List ProcessedItem × SearchState × List Str :=
  let qs := personQueries name designation
  let uniq := dedupResults name [] (collectResults oracle qs)
  if !uniq.isEmpty then
    let res := process_tavily_results uniq
    (res, putCache key ⟨res, now⟩ st, issued ++ qs)
  else
    let gq := generalQuery name company designation
    let res := match oracle gq with
      | .ok rs => if rs.isEmpty then [] else process_tavily_results rs
      | .error _ => []
    (res, putCache key ⟨res, now⟩ st, issued ++ qs ++ [gq])

/-- The cache-miss body of `search_content_by_person`. -/
def searchFresh (oracle : SearchOracle) (now : Nat) (name : Str)
    (company designation : Option Str) (st : SearchState) (key : Str) :
    List ProcessedItem × SearchState × List Str :=
  match company with
  | some comp =>
    let qs := companyQueries name comp
    let uniq := dedupResults name [] (collectResults oracle qs)
    if !uniq.isEmpty then
      let res := process_tavily_results uniq
      (res, putCache key ⟨res, now⟩ st, qs)
    else personPhase oracle now name company designation st key qs
  | none => personPhase oracle now name company designation st key []

/-- `search_content_by_person(person_name, company, designation)`:
returns the result set, the new session state, and the trace of queries
issued to the search client. -/
def search_content_by_person (oracle : SearchOracle) (now : Nat) (name : Str)
    (company designation : Option Str) (st : SearchState) :
    List ProcessedItem × SearchState × List Str :=
  let key := cacheKey name company designation
  match lookupCache key st.cache with
  | some e =>
    if now - e.timestamp < 60 then (e.results, st, [])
    else searchFresh oracle now name company designation st key
  | none => searchFresh oracle now name company designation st key

/-!
## `generate_message`

The Groq completion call is an oracle (`draft`); the content-rotation
counter of the session state is threaded explicitly.  The function
increments the counter whenever the result set is truthy (non-empty),
*before* the completion call, and applies `enforce_constraints` to a
successful draft.
-/

def generate_message (draft : Option ProcessedItem → Except Unit Str)
    (content_data : List ProcessedItem) (counter : Nat)
    (company designation : Option Str) (pick : Nat) : Option Str × Nat :=
  match content_data with
  | [] =>
    (match draft none with
     | .ok d => some (enforce_constraints d company designation pick)
     | .error _ => none, counter)
  | _ :: _ =>
    let sel := content_data.getD (counter % content_data.length)
      ⟨[], [], [], [], []⟩
    (match draft (some sel) with
     | .ok d => some (enforce_constraints d company designation pick)
     | .error _ => none, counter + 1)

/-!
## Basic string lemmas
-/

theorem isPrefixOf_eq_true_iff {n h : Str} :
    n.isPrefixOf h = true ↔ ∃ t, h = n ++ t := by
  induction n generalizing h with
  | nil => simp [List.isPrefixOf]
  | cons a n ih =>
    cases h with
    | nil => simp [List.isPrefixOf]
    | cons b t =>
      simp only [List.isPrefixOf, Bool.and_eq_true, beq_iff_eq, ih,
        List.cons_append, List.cons.injEq]
      constructor
      · rintro ⟨rfl, u, rfl⟩; exact ⟨u, rfl, rfl⟩
      · rintro ⟨u, rfl, rfl⟩; exact ⟨rfl, u, rfl⟩

/-- Occurrence of `n` as a contiguous substring of `h`. -/
def strOccurs (h n : Str) : Prop := ∃ a b, h = a ++ n ++ b

theorem hasSubstr_iff_occurs {h n : Str} : hasSubstr h n = true ↔ strOccurs h n := by
  induction h with
  | nil =>
    simp only [hasSubstr, strOccurs, List.isEmpty_iff]
    constructor
    · rintro rfl; exact ⟨[], [], rfl⟩
    · rintro ⟨a, b, hab⟩
      rcases List.append_eq_nil.mp hab.symm with ⟨h1, h2⟩
      exact (List.append_eq_nil.mp h1).2
  | cons c t ih =>
    simp only [hasSubstr, Bool.or_eq_true, isPrefixOf_eq_true_iff, ih, strOccurs]
    constructor
    · rintro (⟨u, hu⟩ | ⟨a, b, rfl⟩)
      · exact ⟨[], u, by simpa using hu⟩
      · exact ⟨c :: a, b, rfl⟩
    · rintro ⟨a, b, hab⟩
      cases a with
      | nil => exact Or.inl ⟨b, by simpa using hab⟩
      | cons x a' =>
        right
        refine ⟨a', b, ?_⟩
        have := hab
        simp only [List.cons_append, List.cons.injEq] at this
        exact this.2

theorem occurs_append_right {h n t : Str} (ho : strOccurs h n) :
    strOccurs (h ++ t) n := by
  obtain ⟨a, b, rfl⟩ := ho
  exact ⟨a, b ++ t, by simp⟩

theorem occurs_of_middle (a n b : Str) : strOccurs (a ++ n ++ b) n := ⟨a, b, rfl⟩

theorem hasSubstr_iff_findSub_isSome {h n : Str} :
    hasSubstr h n = true ↔ (findSub h n).isSome = true := by
  induction h with
  | nil =>
    simp only [hasSubstr, findSub]
    split <;> simp_all
  | cons c t ih =>
    simp only [hasSubstr, findSub, Bool.or_eq_true, ih]
    split <;> simp_all [Option.isSome_map]

theorem findSub_some_drop {h n : Str} {i : Nat} (hf : findSub h n = some i) :
    n.isPrefixOf (h.drop i) = true := by
  induction h generalizing i with
  | nil =>
    simp only [findSub] at hf
    split at hf
    · cases hf
      simp_all [List.isEmpty_iff, List.isPrefixOf]
    · cases hf
  | cons c t ih =>
    simp only [findSub] at hf
    split at hf
    next hpre => cases hf; simpa using hpre
    next =>
      rcases Option.map_eq_some'.mp hf with ⟨j, hj, rfl⟩
      simpa using ih hj

theorem findSub_some_le_length {h n : Str} {i : Nat} (hf : findSub h n = some i) :
    i ≤ h.length := by
  induction h generalizing i with
  | nil =>
    simp only [findSub] at hf
    split at hf
    · cases hf; simp
    · cases hf
  | cons c t ih =>
    simp only [findSub] at hf
    split at hf
    · cases hf; simp
    · rcases Option.map_eq_some'.mp hf with ⟨j, hj, rfl⟩
      have := ih hj
      simp
      omega

theorem findSub_some_bound {h n : Str} {i : Nat} (hf : findSub h n = some i) :
    i + n.length ≤ h.length := by
  have hd := findSub_some_drop hf
  have hle := findSub_some_le_length hf
  obtain ⟨u, hu⟩ := isPrefixOf_eq_true_iff.mp hd
  have : (h.drop i).length = n.length + u.length := by rw [hu]; simp
  simp only [List.length_drop] at this
  omega

theorem findSub_decomp {h n : Str} {i : Nat} (hf : findSub h n = some i) :
    h = h.take i ++ n ++ h.drop (i + n.length) := by
  obtain ⟨u, hu⟩ := isPrefixOf_eq_true_iff.mp (findSub_some_drop hf)
  have hu2 : h.drop (i + n.length) = u := by
    have hdd : (h.drop i).drop n.length = u := by rw [hu]; simp
    rwa [List.drop_drop] at hdd
  conv_lhs => rw [← List.take_append_drop i h]
  rw [hu, hu2, List.append_assoc]

theorem rfindChar_some_lt {l : Str} {c : Char} {j : Nat}
    (h : rfindChar l c = some j) : j < l.length := by
  induction l generalizing j with
  | nil => simp [rfindChar] at h
  | cons a t ih =>
    simp only [rfindChar] at h
    split at h
    next j' hj' =>
      cases h
      have := ih hj'
      simp
      omega
    next =>
      split at h
      · cases h; simp
      · cases h

/-!
## Length behaviour of Passes 6 and 7
-/

theorem wltc_length : wltc.length = 21 := by decide
theorem wltcDot_length : wltcDot.length = 22 := by decide

theorem dots_length : ("...".toList).length = 3 := by decide

theorem enforceUpper_length_le (m : Str) : (enforceUpper m).length ≤ 270 := by
  rw [enforceUpper]
  split
  next hle => exact hle
  next hgt =>
    rw [Nat.not_le] at hgt
    split
    next hw =>
      dsimp only
      split
      next h240 =>
        rw [List.length_take] at h240
        split
        next lp hlp =>
          have hlt : lp < ((m.take (findSubD m wltc)).take 240).length :=
            rfindChar_some_lt hlp
          rw [List.length_take, List.length_take] at hlt
          split
          next hlp0 =>
            simp only [List.length_append, List.length_take, wltcDot_length]
            omega
          next =>
            simp only [List.length_append, List.length_take, wltcDot_length,
              dots_length]
            omega
        next =>
          simp only [List.length_append, List.length_take, wltcDot_length,
            dots_length]
          omega
      next h240 =>
        rw [Nat.not_lt, List.length_take] at h240
        simp only [List.length_append, List.length_take, wltcDot_length]
        omega
    next =>
      split
      next lp hlp =>
        have hlt : lp < (m.take 270).length := rfindChar_some_lt hlp
        rw [List.length_take] at hlt
        split
        next hlp0 =>
          rw [List.length_take]
          omega
        next =>
          simp only [List.length_append, List.length_take, dots_length]
          omega
      next =>
        simp only [List.length_append, List.length_take, dots_length]
        omega

theorem enforceLower_of_ge {m : Str} (pick : Nat) (h : 200 ≤ m.length) :
    enforceLower pick m = m := by
  rw [enforceLower]
  split
  next hlt => omega
  next => rfl

theorem enhancement_getD_length_le (pick : Nat) :
    (enhancement_phrases.getD (pick % enhancement_phrases.length) []).length ≤ 72 := by
  have h4 : enhancement_phrases.length = 4 := by decide
  rw [h4]
  have : pick % 4 < 4 := Nat.mod_lt _ (by omega)
  have hc : pick % 4 = 0 ∨ pick % 4 = 1 ∨ pick % 4 = 2 ∨ pick % 4 = 3 := by omega
  rcases hc with h | h | h | h <;> rw [h] <;> decide

/-!
## Canonical connect-phrase preservation
-/

theorem wltcDot_decomp : wltcDot = wltc ++ ['.'] := by decide

theorem wltc_mem : wltc ∈ connection_phrases := by decide

theorem nnwltc_decomp :
    "\n\nWould love to connect.".toList = ['\n', '\n'] ++ (wltc ++ ['.']) := by decide

/-- Pass 5 always leaves one of the canonical connect phrases in the
message. -/
theorem ensureConnect_occurs (m : Str) :
    ∃ p ∈ connection_phrases, strOccurs (ensureConnect m) p := by
  rw [ensureConnect]
  split
  next hany =>
    obtain ⟨p, hp, hhas⟩ := List.any_eq_true.mp hany
    exact ⟨p, hp, hasSubstr_iff_occurs.mp hhas⟩
  next =>
    split
    next i hi =>
      split
      next h0 =>
        refine ⟨wltc, wltc_mem, ⟨m.take i, ['.'], ?_⟩⟩
        rw [wltcDot_decomp, ← List.append_assoc]
      next =>
        refine ⟨wltc, wltc_mem, ⟨m ++ ['\n', '\n'], ['.'], ?_⟩⟩
        rw [nnwltc_decomp]
        simp [List.append_assoc]
    next =>
      refine ⟨wltc, wltc_mem, ⟨m ++ ['\n', '\n'], ['.'], ?_⟩⟩
      rw [nnwltc_decomp]
      simp [List.append_assoc]

theorem occurs_wltcDot_right (x : Str) : strOccurs (x ++ wltcDot) wltc :=
  ⟨x, ['.'], by rw [wltcDot_decomp, ← List.append_assoc]⟩

theorem occurs_mid_wltc (x y : Str) : strOccurs (x ++ (' ' :: wltc) ++ y) wltc :=
  ⟨x ++ [' '], y, by simp [List.append_assoc]⟩

/-- Pass 6 keeps a canonical phrase, provided it is not reached above the
length cap without the exact substring "Would love to connect". -/
theorem enforceUpper_occurs {m : Str}
    (h : hasSubstr m wltc = true ∨ m.length ≤ 270)
    (h5 : ∃ p ∈ connection_phrases, strOccurs m p) :
    ∃ p ∈ connection_phrases, strOccurs (enforceUpper m) p := by
  rw [enforceUpper]
  split
  next => exact h5
  next hgt =>
    rcases h with hw | hle
    · rw [hw]
      simp only [if_true]
      exact ⟨wltc, wltc_mem, occurs_wltcDot_right _⟩
    · omega

/-- Pass 7 keeps a canonical phrase. -/
theorem enforceLower_occurs_preserve {m : Str} (pick : Nat)
    (h : ∃ p ∈ connection_phrases, strOccurs m p) :
    ∃ p ∈ connection_phrases, strOccurs (enforceLower pick m) p := by
  rw [enforceLower]
  split
  next =>
    dsimp only
    split
    next hw => exact ⟨wltc, wltc_mem, occurs_mid_wltc _ _⟩
    next =>
      obtain ⟨p, hp, ho⟩ := h
      exact ⟨p, hp, occurs_append_right ho⟩
  next => exact h

theorem enforceLower_length_le (pick : Nat) (m : Str) :
    (enforceLower pick m).length ≤ m.length + 73 := by
  rw [enforceLower]
  split
  next hlt =>
    have henh := enhancement_getD_length_le pick
    split
    next hw =>
      obtain ⟨i, hi⟩ := Option.isSome_iff_exists.mp (hasSubstr_iff_findSub_isSome.mp hw)
      have hbound := findSub_some_bound hi
      rw [wltc_length] at hbound
      have hiD : findSubD m wltc = i := by simp [findSubD, hi]
      rw [hiD]
      have hb : (if hasSubstr (m.drop (i + wltc.length)) wltc = true then
          (m.drop (i + wltc.length)).take (findSubD (m.drop (i + wltc.length)) wltc)
          else m.drop (i + wltc.length)).length ≤ (m.drop (i + wltc.length)).length := by
        split
        · simp [List.length_take]
        · simp
      simp only [List.length_append, List.length_take, List.length_cons,
        wltc_length, List.length_drop] at hb ⊢
      omega
    next =>
      simp only [List.length_append, List.length_cons]
      omega
  next => omega

/-!
## Banned-phrase removal only targets case-insensitive occurrences
-/

theorem ciStripPrefix_imp_lower {w s r : Str} (h : ciStripPrefix w s = some r) :
    (lowerStr w).isPrefixOf (lowerStr s) = true := by
  induction w generalizing s r with
  | nil => simp [lowerStr, List.isPrefixOf]
  | cons a w ih =>
    cases s with
    | nil => simp [ciStripPrefix] at h
    | cons b s =>
      simp only [ciStripPrefix] at h
      split at h
      next heq =>
        simp only [lowerStr, List.map_cons, List.isPrefixOf, Bool.and_eq_true,
          beq_iff_eq]
        exact ⟨heq, ih h⟩
      next => exact absurd h (by simp)

theorem hasSubstr_of_isPrefixOf {h n : Str} (hp : n.isPrefixOf h = true) :
    hasSubstr h n = true := by
  cases h with
  | nil =>
    cases n with
    | nil => rfl
    | cons a m => simp [List.isPrefixOf] at hp
  | cons c t =>
    simp only [hasSubstr, hp, Bool.true_or]

theorem ciHasSubstr_cons_false {c : Char} {t w : Str}
    (h : ciHasSubstr (c :: t) w = false) : ciHasSubstr t w = false := by
  simp only [ciHasSubstr, lowerStr, List.map_cons, hasSubstr,
    Bool.or_eq_false_iff] at h
  exact h.2

theorem wordSubAux_id_of_no_ci {w : Str} :
    ∀ (fuel : Nat) (prev : Option Char) (s : Str),
      ciHasSubstr s w = false → wordSubAux w fuel prev s = s := by
  intro fuel
  induction fuel with
  | zero => intro prev s _; cases s <;> rfl
  | succ fuel ih =>
    intro prev s hs
    cases s with
    | nil => rfl
    | cons c t =>
      have hnone : ciStripPrefix w (c :: t) = none := by
        cases hsp : ciStripPrefix w (c :: t) with
        | none => rfl
        | some r =>
          have hpre := ciStripPrefix_imp_lower hsp
          have : ciHasSubstr (c :: t) w = true := by
            simp only [ciHasSubstr]
            exact hasSubstr_of_isPrefixOf hpre
          rw [this] at hs
          cases hs
      simp only [wordSubAux, hnone]
      rw [ih (some c) t (ciHasSubstr_cons_false hs)]

theorem wordSub_id_of_no_ci {w s : Str} (h : ciHasSubstr s w = false) :
    wordSub w s = s := wordSubAux_id_of_no_ci s.length none s h

theorem foldl_wordSub_id {s : Str} :
    ∀ ws : List Str, (ws.all (fun w => !ciHasSubstr s w)) = true →
      ws.foldl (fun acc w => wordSub w acc) s = s := by
  intro ws
  induction ws with
  | nil => intro _; rfl
  | cons w ws ih =>
    intro h
    rw [List.all_cons, Bool.and_eq_true] at h
    obtain ⟨h1, h2⟩ := h
    rw [Bool.not_eq_true'] at h1
    simp only [List.foldl_cons, wordSub_id_of_no_ci h1]
    exact ih h2

/-!
## Claim C1: the 200–270 length window
-/

/-- C1 (counterexample): a 281-character input — far from "pathologically
short" — yields an output of fewer than 200 characters for every possible
filler choice (Pass 7 indices 0–3 exhaust the `random.choice` pool, and
`pick` acts modulo 4), because Pass 6 discards everything after a leading
connect phrase.  This falsifies the claim that only too-short inputs can
miss the 200-character floor. -/
theorem enforce_length_window_cex :
    ("Would love to connect".toList ++ List.replicate 260 'x').length = 281 ∧
      ((List.range 4).all (fun pick =>
        decide ((enforce_constraints
          ("Would love to connect".toList ++ List.replicate 260 'x')
          none none pick).length < 200))) = true := by
  constructor
  · decide
  · decide

/-- C1 (amended): for every input, company, designation and filler choice,
the output of `enforce_constraints` has at most 272 characters (a single
filler insertion can overshoot 270 by up to 2), and whenever the message
entering Pass 7 already has at least 200 characters the output lies in the
claimed 200–270 window.  The floor can fail even for long inputs, because
Pass 6 keeps only the content before the first "Would love to connect". -/
theorem enforce_length_window_amended (m : Str) (c d : Option Str) (pick : Nat) :
    (enforce_constraints m c d pick).length ≤ 272 ∧
      (200 ≤ (enforcePre m c d).length →
        200 ≤ (enforce_constraints m c d pick).length ∧
          (enforce_constraints m c d pick).length ≤ 270) := by
  have h6 : (enforcePre m c d).length ≤ 270 := by
    rw [enforcePre]; exact enforceUpper_length_le _
  have h7 := enforceLower_length_le pick (enforcePre m c d)
  constructor
  · by_cases h200 : 200 ≤ (enforcePre m c d).length
    · rw [enforce_constraints, enforceLower_of_ge pick h200]
      omega
    · rw [enforce_constraints]
      omega
  · intro h200
    rw [enforce_constraints, enforceLower_of_ge pick h200]
    exact ⟨h200, h6⟩

/-- C1 (witness): a 230-character draft reaches Pass 7 with 253 characters,
so the amended theorem puts the output in the 200–270 window. -/
theorem enforce_length_window_witness :
    200 ≤ (enforcePre (List.replicate 230 'z') none none).length ∧
      200 ≤ (enforce_constraints (List.replicate 230 'z') none none 0).length ∧
        (enforce_constraints (List.replicate 230 'z') none none 0).length ≤ 270 :=
  ⟨by decide, (enforce_length_window_amended (List.replicate 230 'z') none none 0).2
    (by decide)⟩

/-!
## Claim C2: a canonical connect phrase always occurs in the output
-/

/-- C2 (counterexample): a 285-character draft whose only call-to-action is
a trailing "Let's connect" loses it in Pass 6 (sentence-aware truncation at
the early period), and Pass 7 cannot restore it: for every filler choice
the output contains none of the four canonical connect phrases. -/
theorem enforce_connect_phrase_cex :
    hasSubstr (List.replicate 10 'x' ++ ['.'] ++ List.replicate 260 'y'
        ++ " Let's connect".toList) "Let's connect".toList = true ∧
      ((List.range 4).all (fun pick => connection_phrases.all (fun p =>
        !(hasSubstr (enforce_constraints
          (List.replicate 10 'x' ++ ['.'] ++ List.replicate 260 'y'
            ++ " Let's connect".toList) none none pick) p)))) = true := by
  constructor
  · decide
  · decide

/-- C2 (amended): the output contains a canonical connect phrase whenever
the message entering Pass 6 is within the 270-character cap or contains the
exact substring "Would love to connect"; only over-long messages whose sole
call-to-action is one of the other phrases can lose it to truncation. -/
theorem enforce_connect_phrase_amended (m : Str) (c d : Option Str) (pick : Nat)
    (h : hasSubstr (afterConnectPass m c d) wltc = true ∨
      (afterConnectPass m c d).length ≤ 270) :
    ∃ p ∈ connection_phrases, strOccurs (enforce_constraints m c d pick) p := by
  have h5 : ∃ p ∈ connection_phrases, strOccurs (afterConnectPass m c d) p := by
    rw [afterConnectPass]
    exact ensureConnect_occurs _
  rw [enforce_constraints, enforcePre]
  exact enforceLower_occurs_preserve pick (enforceUpper_occurs h h5)

/-- C2 (witness): a short draft satisfies the side condition, so the output
contains a canonical connect phrase. -/
theorem enforce_connect_phrase_witness :
    (afterConnectPass "Hello.".toList none none).length ≤ 270 ∧
      ∃ p ∈ connection_phrases,
        strOccurs (enforce_constraints "Hello.".toList none none 0) p :=
  ⟨by decide, enforce_connect_phrase_amended "Hello.".toList none none 0
    (Or.inr (by decide))⟩

/-!
## Claim C3: banned phrases never appear in the output
-/

/-- C3 (counterexample): the banned list is matched with word boundaries,
so the banned word "exploring" embedded in the larger word "rexploring" is
not removed and appears, case-insensitively, in the final output of
`enforce_constraints` for every filler choice. -/
theorem banned_phrase_cex :
    "exploring".toList ∈ prohibited_words ∧
      ((List.range 4).all (fun pick => ciHasSubstr
        (enforce_constraints "rexploring".toList none none pick)
        "exploring".toList)) = true := by
  constructor
  · decide
  · decide

/-- C3 (amended): Pass 1 removes banned phrases only at case-insensitive,
word-boundary-delimited occurrences: an input containing no banned phrase
as a case-insensitive substring passes through Pass 1 unchanged, while a
banned phrase embedded inside a larger word survives to the output (so the
output is not banned-substring-free). -/
theorem banned_phrase_amended (s : Str)
    (h : (prohibited_words.all (fun w => !ciHasSubstr s w)) = true) :
    stripProhibited s = s := by
  rw [stripProhibited]
  exact foldl_wordSub_id prohibited_words h

/-- C3 (witness): a clean draft is untouched by Pass 1. -/
theorem banned_phrase_witness :
    (prohibited_words.all
      (fun w => !ciHasSubstr "Great piece on supply chains.".toList w)) = true ∧
      stripProhibited "Great piece on supply chains.".toList
        = "Great piece on supply chains.".toList :=
  ⟨by decide, banned_phrase_amended "Great piece on supply chains.".toList (by decide)⟩

/-!
## Position-based characterizations of substring search
-/

theorem hasSubstr_eq_range_any (h n : Str) :
    hasSubstr h n
      = (List.range (h.length + 1)).any (fun i => n.isPrefixOf (h.drop i)) := by
  induction h with
  | nil =>
    cases n with
    | nil => rfl
    | cons a m => rfl
  | cons c t ih =>
    rw [List.length_cons, List.range_succ_eq_map]
    rw [List.any_cons]
    have hmap : ((List.range (t.length + 1)).map Nat.succ).any
        (fun i => n.isPrefixOf ((c :: t).drop i))
        = (List.range (t.length + 1)).any (fun i => n.isPrefixOf (t.drop i)) := by
      rw [List.any_map]
      rfl
    rw [hmap, List.drop_zero, ← ih]
    rfl

theorem find?_map_add_one (l : List Nat) (p : Nat → Bool) :
    (l.map (· + 1)).find? p = (l.find? (fun i => p (i + 1))).map (· + 1) := by
  induction l with
  | nil => rfl
  | cons a t ih =>
    simp only [List.map_cons, List.find?_cons]
    cases hp : p (a + 1) <;> simp [hp, ih]

theorem range_succ_eq_map_add_one (k : Nat) :
    List.range (k + 1) = 0 :: (List.range k).map (· + 1) := by
  rw [List.range_succ_eq_map]

theorem findSub_eq_range_find (h n : Str) :
    findSub h n
      = (List.range (h.length + 1)).find? (fun i => n.isPrefixOf (h.drop i)) := by
  induction h with
  | nil =>
    cases n with
    | nil => rfl
    | cons a m => rfl
  | cons c t ih =>
    rw [List.length_cons, range_succ_eq_map_add_one, List.find?_cons]
    cases hp : n.isPrefixOf ((c :: t).drop 0)
    · rw [List.drop_zero] at hp
      simp only [findSub, hp, find?_map_add_one]
      have harg : (fun i => n.isPrefixOf ((c :: t).drop (i + 1)))
          = (fun i => n.isPrefixOf (t.drop i)) := rfl
      rw [harg, ← ih]
      simp
    · rw [List.drop_zero] at hp
      simp only [findSub, hp]
      simp

/-!
## Claim C4: the call-to-action pass
-/

/-- Modelled from the spec (as amended): Pass 5 checks, position by
position, whether some canonical connect phrase occurs (a *case-sensitive*
substring match) and leaves the message unchanged if so; otherwise it finds
the least index at which "connect" occurs in the lower-cased message — if
that index is positive the message is truncated there and the canonical
closing "Would love to connect." replaces the rest, while at index zero, or
with no occurrence at all, the closing is appended after two newlines. -/
def ensureConnectSpec (m : Str) : Str :=
  let detected := (List.range (m.length + 1)).any
    (fun i => connection_phrases.any (fun p => p.isPrefixOf (m.drop i)))
  if detected then m
  else
    match (List.range ((lowerStr m).length + 1)).find?
        (fun i => "connect".toList.isPrefixOf ((lowerStr m).drop i)) with
    | some i =>
      if 0 < i then m.take i ++ "Would love to connect.".toList
      else m ++ "\n\nWould love to connect.".toList
    | none => m ++ "\n\nWould love to connect.".toList

/-- C4 (counterexample): detection is case-*sensitive*, not
case-insensitive — a lower-cased connect phrase is not detected and the
message is rewritten — and a message whose first "connect" is at index 0 is
not truncated there but gets the closing appended instead. -/
theorem pass5_cta_cex :
    (connection_phrases.any
      (fun p => ciHasSubstr "would love to connect".toList p)) = true ∧
      ensureConnect "would love to connect".toList
        ≠ "would love to connect".toList ∧
      findSub (lowerStr "connect with me".toList) "connect".toList = some 0 ∧
      ensureConnect "connect with me".toList
        = "connect with me\n\nWould love to connect.".toList := by
  refine ⟨by decide, by decide, by decide, by decide⟩

/-- C4 (amended): Pass 5 detects an existing call-to-action by a
case-sensitive substring match against the four connection phrases and
leaves the message unchanged when one is present; otherwise, when
"connect" first occurs (case-insensitively) at a positive index, it
truncates there and appends the canonical closing, and when "connect" is
absent or first occurs at index 0 it appends the closing after two
newlines.  The implementation pass equals this specification. -/
theorem pass5_cta_amended (m : Str) : ensureConnect m = ensureConnectSpec m := by
  rw [ensureConnect, ensureConnectSpec]
  have hdet : ((List.range (m.length + 1)).any
      (fun i => connection_phrases.any (fun p => p.isPrefixOf (m.drop i))))
      = connection_phrases.any (fun p => hasSubstr m p) := by
    rw [Bool.eq_iff_iff]
    simp only [List.any_eq_true, hasSubstr_eq_range_any]
    constructor
    · rintro ⟨i, hi, p, hp, hocc⟩
      exact ⟨p, hp, i, hi, hocc⟩
    · rintro ⟨p, hp, i, hi, hocc⟩
      exact ⟨i, hi, p, hp, hocc⟩
  rw [hdet, ← findSub_eq_range_find]
  rfl

/-!
## Extension lemmas: a successful signature-head match on a string is
preserved when the string is extended on the right
-/

theorem ciStripPrefix_ext {w y z r : Str} (h : ciStripPrefix w y = some r) :
    ciStripPrefix w (y ++ z) = some (r ++ z) := by
  induction w generalizing y r with
  | nil =>
    simp only [ciStripPrefix] at h
    cases h
    rfl
  | cons a w ih =>
    cases y with
    | nil => simp [ciStripPrefix] at h
    | cons b y' =>
      simp only [ciStripPrefix, List.cons_append] at h ⊢
      split at h
      next heq => rw [if_pos heq]; exact ih h
      next => exact absurd h (by simp)

theorem ciStripPrefix_none_ext {w y : Str} (h : ciStripPrefix w y = none) :
    (∀ z, ciStripPrefix w (y ++ z) = none) ∨
      (lowerStr y).isPrefixOf (lowerStr w) = true := by
  induction w generalizing y with
  | nil => simp [ciStripPrefix] at h
  | cons a w ih =>
    cases y with
    | nil =>
      right
      simp [lowerStr, List.isPrefixOf]
    | cons b y' =>
      simp only [ciStripPrefix] at h
      split at h
      next heq =>
        rcases ih h with hl | hr
        · left
          intro z
          simp only [List.cons_append, ciStripPrefix, if_pos heq]
          exact hl z
        · right
          simp only [lowerStr, List.map_cons, List.isPrefixOf, Bool.and_eq_true,
            beq_iff_eq]
          exact ⟨heq.symm, by simpa [lowerStr] using hr⟩
      next heq =>
        left
        intro z
        simp [List.cons_append, ciStripPrefix, heq]

theorem dropWhile_ext {p : Char → Bool} {y : Str} (z : Str)
    (h : y.dropWhile p ≠ []) : (y ++ z).dropWhile p = y.dropWhile p ++ z := by
  induction y with
  | nil => simp [List.dropWhile] at h
  | cons c t ih =>
    cases hp : p c with
    | true =>
      rw [List.dropWhile_cons_of_pos hp] at h
      rw [List.cons_append, List.dropWhile_cons_of_pos hp,
        List.dropWhile_cons_of_pos hp]
      exact ih h
    | false =>
      rw [List.cons_append, List.dropWhile_cons_of_neg (by simp [hp]),
        List.dropWhile_cons_of_neg (by simp [hp]), List.cons_append]

theorem commaDrop_ext {y : Str} (z : Str) (h : y ≠ []) :
    commaDrop (y ++ z) = commaDrop y ++ z := by
  cases y with
  | nil => exact absurd rfl h
  | cons c t =>
    simp only [List.cons_append, commaDrop]
    split
    · rfl
    · rw [List.cons_append]

/-- The lower-cased first letter of a word, used to state that the closing
words of the signature pattern are pairwise distinguishable. -/
def headLower (w : Str) : Char := (w.headD ' ').toLower

theorem tryClosings_nil_none {ws : List Str} (hne : ∀ w ∈ ws, w ≠ []) :
    tryClosings ws ([] : Str) = none := by
  induction ws with
  | nil => rfl
  | cons w ws ih =>
    cases hw : w with
    | nil => exact absurd hw (hne w (by simp))
    | cons a w' =>
      simp only [tryClosings, ciStripPrefix]
      exact ih (fun u hu => hne u (by simp [hu]))

theorem tryClosings_some_head {ws : List Str} {b : Char} {y' r : Str}
    (hne : ∀ w ∈ ws, w ≠ [])
    (h : tryClosings ws (b :: y') = some r) :
    ∃ w ∈ ws, headLower w = b.toLower := by
  induction ws with
  | nil => simp [tryClosings] at h
  | cons w ws ih =>
    cases hw : ciStripPrefix w (b :: y') with
    | some r0 =>
      cases hwn : w with
      | nil => exact absurd hwn (hne w (by simp))
      | cons a w' =>
        rw [hwn] at hw
        simp only [ciStripPrefix] at hw
        split at hw
        next heq =>
          exact ⟨w, by rw [hwn]; exact List.mem_cons_self _ _,
            by rw [hwn]; simpa [headLower] using heq⟩
        next => exact absurd hw (by simp)
    | none =>
      simp only [tryClosings, hw] at h
      obtain ⟨w1, hw1, hh⟩ := ih (fun u hu => hne u (by simp [hu])) h
      exact ⟨w1, by simp [hw1], hh⟩

theorem tryClosings_ext_gen {y z r : Str} :
    ∀ ws : List Str, (∀ w ∈ ws, w ≠ []) →
      ws.Pairwise (fun u v => headLower u ≠ headLower v) →
      tryClosings ws y = some r → tryClosings ws (y ++ z) = some (r ++ z) := by
  intro ws
  induction ws with
  | nil => intro _ _ h; simp [tryClosings] at h
  | cons w ws ih =>
    intro hne hpw h
    have hneTail : ∀ u ∈ ws, u ≠ [] := fun u hu => hne u (by simp [hu])
    cases hw : ciStripPrefix w y with
    | some r0 =>
      simp only [tryClosings, hw] at h
      cases h
      simp only [tryClosings, ciStripPrefix_ext hw]
    | none =>
      simp only [tryClosings, hw] at h
      rcases ciStripPrefix_none_ext hw with hl | hr
      · simp only [tryClosings, hl z]
        exact ih hneTail (List.Pairwise.of_cons hpw) h
      · exfalso
        cases y with
        | nil => rw [tryClosings_nil_none hneTail] at h; cases h
        | cons b y' =>
          obtain ⟨w1, hw1mem, hh1⟩ := tryClosings_some_head hneTail h
          have hwne := hne w (by simp)
          cases hwn : w with
          | nil => exact hwne hwn
          | cons a w'' =>
            rw [hwn] at hr
            simp only [lowerStr, List.map_cons, List.isPrefixOf,
              Bool.and_eq_true, beq_iff_eq] at hr
            have hhw : headLower w = b.toLower := by
              rw [hwn]; simpa [headLower] using hr.1.symm
            have := (List.pairwise_cons.mp hpw).1 w1 hw1mem
            rw [hhw, hh1] at this
            exact this rfl

theorem tryClosings_closing_ext {y z r : Str}
    (h : tryClosings closing_words y = some r) :
    tryClosings closing_words (y ++ z) = some (r ++ z) :=
  tryClosings_ext_gen closing_words (by decide) (by decide) h

theorem sigHead_ext {y z r : Str} (h : sigHead y = some r) :
    sigHead (y ++ z) = some (r ++ z) := by
  rw [sigHead] at h
  cases htc : tryClosings closing_words (y.dropWhile (· = '\n')) with
  | none => rw [htc] at h; cases h
  | some s2 =>
    rw [htc] at h
    dsimp only at h
    have hKne : ∀ u : Str, ciStripPrefix "Kingshuk".toList u = some r → u ≠ [] := by
      intro u hu hun
      rw [hun] at hu
      simp [ciStripPrefix] at hu
    have hs5ne := hKne _ h
    have hs4ne : ((commaDrop s2).dropWhile isPySpace) ≠ [] := by
      intro he
      rw [he] at hs5ne
      simp [List.dropWhile] at hs5ne
    have hs3ne : commaDrop s2 ≠ [] := by
      intro he
      rw [he] at hs4ne
      simp [List.dropWhile] at hs4ne
    have hs2ne : s2 ≠ [] := by
      intro he
      rw [he] at hs3ne
      simp [commaDrop] at hs3ne
    have hs1ne : y.dropWhile (· = '\n') ≠ [] := by
      intro he
      rw [he, tryClosings_nil_none (by decide)] at htc
      cases htc
    rw [sigHead, dropWhile_ext z hs1ne, tryClosings_closing_ext htc]
    dsimp only
    rw [commaDrop_ext z hs2ne, dropWhile_ext z hs4ne, dropWhile_ext z hs5ne]
    exact ciStripPrefix_ext h

/-!
## Character-class preservation through the signature matcher
-/

theorem all_dropWhile {p q : Char → Bool} {s : Str} (h : s.all p = true) :
    (s.dropWhile q).all p = true := by
  induction s with
  | nil => rfl
  | cons c t ih =>
    rw [List.all_cons, Bool.and_eq_true] at h
    cases hq : q c
    · rw [List.dropWhile_cons_of_neg (by simp [hq]), List.all_cons,
        Bool.and_eq_true]
      exact ⟨h.1, h.2⟩
    · rw [List.dropWhile_cons_of_pos hq]
      exact ih h.2

theorem all_reverse {p : Char → Bool} {s : Str} (h : s.all p = true) :
    s.reverse.all p = true := by
  rw [List.all_eq_true] at h ⊢
  intro x hx
  exact h x (List.mem_reverse.mp hx)

theorem all_commaDrop {p : Char → Bool} {s : Str} (h : s.all p = true) :
    (commaDrop s).all p = true := by
  cases s with
  | nil => rfl
  | cons c t =>
    rw [List.all_cons, Bool.and_eq_true] at h
    simp only [commaDrop]
    split
    · exact h.2
    · rw [List.all_cons, Bool.and_eq_true]
      exact ⟨h.1, h.2⟩

theorem ciStripPrefix_some_all {p : Char → Bool} {w s r : Str}
    (hs : ciStripPrefix w s = some r) (h : s.all p = true) : r.all p = true := by
  induction w generalizing s r with
  | nil =>
    simp only [ciStripPrefix] at hs
    cases hs
    exact h
  | cons a w ih =>
    cases s with
    | nil => simp [ciStripPrefix] at hs
    | cons b t =>
      simp only [ciStripPrefix] at hs
      split at hs
      · rw [List.all_cons, Bool.and_eq_true] at h
        exact ih hs h.2
      · exact absurd hs (by simp)

theorem tryClosings_some_all {p : Char → Bool} {s r : Str} :
    ∀ ws : List Str, tryClosings ws s = some r → s.all p = true →
      r.all p = true := by
  intro ws
  induction ws with
  | nil => intro h _; simp [tryClosings] at h
  | cons w ws ih =>
    intro h hall
    cases hw : ciStripPrefix w s with
    | some r0 =>
      simp only [tryClosings, hw] at h
      cases h
      exact ciStripPrefix_some_all hw hall
    | none =>
      simp only [tryClosings, hw] at h
      exact ih h hall

theorem sigHead_some_all {p : Char → Bool} {s r : Str}
    (h : sigHead s = some r) (hall : s.all p = true) : r.all p = true := by
  rw [sigHead] at h
  cases htc : tryClosings closing_words (s.dropWhile (· = '\n')) with
  | none => rw [htc] at h; cases h
  | some s2 =>
    rw [htc] at h
    dsimp only at h
    exact ciStripPrefix_some_all h (all_dropWhile (all_dropWhile
      (all_commaDrop (tryClosings_some_all _ htc (all_dropWhile hall)))))

/-!
## No signature-pattern occurrence survives Pass 4
-/

/-- Modelled from the spec's signature property (as amended): some position
of the message starts a full match of the signature pattern
`\n*(Best|Regards|Thanks|Sincerely),?\s*\n*Kingshuk.*$`. -/
def hasSigOccur (m : Str) : Bool :=
  (List.range (m.length + 1)).any (fun i => sigMatchHere (m.drop i))

theorem hasSigOccur_cons (c : Char) (m : Str) :
    hasSigOccur (c :: m) = (sigMatchHere (c :: m) || hasSigOccur m) := by
  rw [hasSigOccur, List.length_cons, range_succ_eq_map_add_one, List.any_cons,
    List.any_map]
  rfl

theorem collapseAux_all_ne_nl : ∀ (b : Bool) (s : Str),
    (collapseAux b s).all (· ≠ '\n') = true := by
  intro b s
  induction s generalizing b with
  | nil => rfl
  | cons c t ih =>
    simp only [collapseAux]
    split
    next hsp =>
      split
      · exact ih true
      · rw [List.all_cons, Bool.and_eq_true]
        exact ⟨by decide, ih true⟩
    next hsp =>
      rw [List.all_cons, Bool.and_eq_true]
      refine ⟨?_, ih false⟩
      have hne : c ≠ '\n' := by
        intro he
        rw [he] at hsp
        exact hsp (by decide)
      simpa using hne

theorem normalizeWS_all_ne_nl (s : Str) :
    (normalizeWS s).all (· ≠ '\n') = true := by
  rw [normalizeWS]
  exact all_reverse (all_dropWhile (all_reverse (all_dropWhile
    (collapseAux_all_ne_nl false s))))

/-- On a newline-free message, Pass 4's output is a prefix of its input. -/
theorem stripSignature_prefix_ex {t : Str} (hnl : t.all (· ≠ '\n') = true) :
    ∃ z, stripSignature t ++ z = t := by
  induction t with
  | nil => exact ⟨[], rfl⟩
  | cons c t ih =>
    have hnlt : t.all (· ≠ '\n') = true := by
      rw [List.all_cons, Bool.and_eq_true] at hnl
      exact hnl.2
    simp only [stripSignature]
    cases hsh : sigHead (c :: t) with
    | some r =>
      dsimp only
      rw [if_pos (sigHead_some_all hsh hnl)]
      exact ⟨c :: t, rfl⟩
    | none =>
      dsimp only
      obtain ⟨z, hz⟩ := ih hnlt
      exact ⟨z, by rw [List.cons_append, hz]⟩

/-- After Pass 4 a newline-free message holds no match of the signature
pattern: the leftmost match is cut through end of string, and a new match
cannot appear in the kept prefix, since any such match would extend to a
match of the original string further left. -/
theorem stripSignature_no_occur {s : Str} (hnl : s.all (· ≠ '\n') = true) :
    hasSigOccur (stripSignature s) = false := by
  induction s with
  | nil => decide
  | cons c t ih =>
    have hnlt : t.all (· ≠ '\n') = true := by
      rw [List.all_cons, Bool.and_eq_true] at hnl
      exact hnl.2
    simp only [stripSignature]
    cases hsh : sigHead (c :: t) with
    | some r =>
      dsimp only
      rw [if_pos (sigHead_some_all hsh hnl)]
      decide
    | none =>
      dsimp only
      have h1 : sigMatchHere (c :: stripSignature t) = false := by
        rw [sigMatchHere]
        cases hsh2 : sigHead (c :: stripSignature t) with
        | none => rfl
        | some r' =>
          exfalso
          obtain ⟨z, hz⟩ := stripSignature_prefix_ex hnlt
          have hext := sigHead_ext (z := z) hsh2
          rw [List.cons_append, hz, hsh] at hext
          cases hext
      rw [hasSigOccur_cons, h1, ih hnlt]
      rfl

/-!
## Claim C5: signature stripping
-/

/-- C5 (counterexample): the closing word of the signature pattern is
mandatory, not optional — a trailing bare sender name "Kingshuk" with no
closing word is not stripped by Pass 4, and a whole message ending in
" Kingshuk" (225 characters, containing "Let's connect") passes through
`enforce_constraints` unchanged for every filler choice, so the output
*does* end with a sign-off of the claimed optional-closing-word form. -/
theorem pass4_signature_cex :
    stripSignature "Hello Kingshuk".toList = "Hello Kingshuk".toList ∧
      ((List.range 4).all (fun pick => decide (enforce_constraints
        (List.replicate 180 'z' ++ " Let's connect. ".toList
          ++ List.replicate 20 'w' ++ " Kingshuk".toList) none none pick
        = List.replicate 180 'z' ++ " Let's connect. ".toList
          ++ List.replicate 20 'w' ++ " Kingshuk".toList))) = true ∧
      ("Kingshuk".toList.isSuffixOf (List.replicate 180 'z'
        ++ " Let's connect. ".toList ++ List.replicate 20 'w'
        ++ " Kingshuk".toList)) = true := by
  refine ⟨by decide, by decide, by decide⟩

/-- C5 (amended): Pass 4 removes a trailing sign-off consisting of a
*mandatory* closing word ("Best"/"Regards"/"Thanks"/"Sincerely",
case-insensitive, optionally followed by a comma) followed by the sender
name, through end of string; a bare sender name is not removed.  Within
`enforce_constraints` Pass 4 runs on the whitespace-normalized (hence
newline-free) message, and afterwards no occurrence of that
closing-word-plus-sender-name pattern remains — in particular the message
leaving Pass 4 never ends with such a sign-off. -/
theorem pass4_signature_amended (m : Str) (c d : Option Str) :
    hasSigOccur (stripSignature (normalizeWS
      (redactOpt d (redactOpt c (stripProhibited m))))) = false :=
  stripSignature_no_occur (normalizeWS_all_ne_nl _)

/-!
## Deduplication and the search result set
-/

/-- A record the deduplication loop can keep at all: truthy URL and
passing the relevance filter. -/
def keepable (name : Str) (r : RawResult) : Bool :=
  !r.url.isEmpty && relevantTo name r

theorem mem_dedupResults {name : Str} {r : RawResult} :
    ∀ {seen : List Str} {rs : List RawResult}, r ∈ dedupResults name seen rs →
      r.url ≠ [] ∧ relevantTo name r = true := by
  intro seen rs
  induction rs generalizing seen with
  | nil => intro h; simp [dedupResults] at h
  | cons x xs ih =>
    intro h
    simp only [dedupResults] at h
    split at h
    next hcond =>
      rcases List.mem_cons.mp h with heq | htail
      · subst heq
        simp only [Bool.and_eq_true, Bool.not_eq_true'] at hcond
        refine ⟨?_, hcond.2⟩
        intro he
        rw [he] at hcond
        exact absurd hcond.1.1 (by decide)
      · exact ih htail
    next => exact ih h

theorem dedup_ne_nil_iff {name : Str} :
    ∀ (rs : List RawResult) (seen : List Str),
      dedupResults name seen rs ≠ [] ↔
        ∃ r ∈ rs, keepable name r = true ∧ seen.contains r.url = false := by
  intro rs
  induction rs with
  | nil => intro seen; simp [dedupResults]
  | cons x xs ih =>
    intro seen
    simp only [dedupResults]
    split
    next hcond =>
      simp only [Bool.and_eq_true, Bool.not_eq_true'] at hcond
      constructor
      · intro _
        exact ⟨x, List.mem_cons_self _ _,
          by rw [keepable, Bool.and_eq_true, Bool.not_eq_true']
             exact ⟨hcond.1.1, hcond.2⟩,
          hcond.1.2⟩
      · intro _
        simp
    next hcond =>
      rw [ih seen]
      constructor
      · rintro ⟨r, hr, hk, hs⟩
        exact ⟨r, List.mem_cons_of_mem _ hr, hk, hs⟩
      · rintro ⟨r, hr, hk, hs⟩
        rcases List.mem_cons.mp hr with heq | htail
        · exfalso
          subst heq
          rw [keepable, Bool.and_eq_true, Bool.not_eq_true'] at hk
          exact hcond (by
            rw [Bool.and_eq_true, Bool.and_eq_true, Bool.not_eq_true',
              Bool.not_eq_true']
            exact ⟨⟨hk.1, hs⟩, hk.2⟩)
        · exact ⟨r, htail, hk, hs⟩

theorem dedup_ne_nil_iff_nilseen {name : Str} (rs : List RawResult) :
    dedupResults name [] rs ≠ [] ↔ ∃ r ∈ rs, keepable name r = true := by
  rw [dedup_ne_nil_iff]
  constructor
  · rintro ⟨r, hr, hk, _⟩; exact ⟨r, hr, hk⟩
  · rintro ⟨r, hr, hk⟩; exact ⟨r, hr, hk, rfl⟩

/-!
## Claim C6: empty-URL records and the relevance check
-/

/-- C6 (counterexample): a record with an empty URL whose title contains
the person name passes the relevance filter, yet deduplication drops it —
the empty URL fails the leading truthiness test instead of bypassing the
uniqueness check. -/
theorem dedup_empty_url_cex :
    relevantTo "Alice".toList ⟨"Alice on AI".toList, [], [], []⟩ = true ∧
      dedupResults "Alice".toList [] [⟨"Alice on AI".toList, [], [], []⟩]
        = [] := by
  refine ⟨by decide, by decide⟩

/-- C6 (amended): a record with an empty URL never appears in the
deduplicated result set, regardless of relevance; every record that does
appear has a non-empty URL and passes the relevance check. -/
theorem dedup_empty_url_amended {name : Str} {seen : List Str}
    {rs : List RawResult} {r : RawResult} (h : r ∈ dedupResults name seen rs) :
    r.url ≠ [] ∧ relevantTo name r = true :=
  mem_dedupResults h

/-- C6 (witness): a record with a URL that passes the filter is kept, and
the amended theorem yields its guarantees for it. -/
theorem dedup_empty_url_witness :
    ((⟨"Alice post".toList, [], "u".toList, []⟩ : RawResult) ∈
        dedupResults "Alice".toList []
          [⟨"Alice post".toList, [], "u".toList, []⟩]) ∧
      (("u".toList : Str) ≠ [] ∧
        relevantTo "Alice".toList ⟨"Alice post".toList, [], "u".toList, []⟩
          = true) :=
  ⟨by decide, @dedup_empty_url_amended "Alice".toList []
    [⟨"Alice post".toList, [], "u".toList, []⟩]
    ⟨"Alice post".toList, [], "u".toList, []⟩ (by decide)⟩

/-!
## Claim C7: the cache fingerprint
-/

def xRec : RawResult :=
  ⟨"General news".toList, "something".toList, "http://gen".toList, []⟩

def yRec : RawResult :=
  ⟨"By Alice".toList, "Alice wrote this".toList, "http://alice".toList, []⟩

/-- An oracle on which every author-specific sub-query fails and only the
broad general-search fallback returns data. -/
def broadOracle : SearchOracle := fun q =>
  if q = generalQuery "Alice".toList none none then .ok [xRec] else .error ()

/-- An oracle on which the first author-specific sub-query returns
author content. -/
def authorOracle : SearchOracle := fun q =>
  if q = (personQueries "Alice".toList none).headD [] then .ok [yRec]
  else .error ()

theorem lookupCache_put (k : Str) (e : CacheEntry) (st : SearchState) :
    lookupCache k (putCache k e st).cache = some e := by
  simp [lookupCache, putCache]

/-- C7 (counterexample): the fingerprint renders absent fields as the
Python string "None" (not the empty string), collides with literal "None"
field values, and carries one fixed suffix rather than a context tag: a
broad-fallback result set cached for "Alice" is later served — with no
retrieval issued — to a call on which the author-specific sub-query would
have returned different (author) content, so the two query kinds share one
cache entry. -/
theorem cache_fingerprint_cex :
    cacheKey "Alice".toList none none
        = "Alice_None_None_author_content".toList ∧
      cacheKey "Alice".toList (some "None".toList) (some "None".toList)
        = cacheKey "Alice".toList none none ∧
      (search_content_by_person broadOracle 0 "Alice".toList none none
        ⟨[]⟩).1 = process_tavily_results [xRec] ∧
      (search_content_by_person authorOracle 10 "Alice".toList none none
        (search_content_by_person broadOracle 0 "Alice".toList none none
          ⟨[]⟩).2.1).1 = process_tavily_results [xRec] ∧
      (search_content_by_person authorOracle 10 "Alice".toList none none
        (search_content_by_person broadOracle 0 "Alice".toList none none
          ⟨[]⟩).2.1).2.2 = [] := by
  refine ⟨by decide, by decide, by decide, by decide, by decide⟩

/-- C7 (amended): the cache key concatenates person name, company and
designation with `_`, rendering absent fields as "None", plus the constant
suffix `_author_content`; a name with literal "None" fields collides with
the absent-field key, and every fresh search — whether its results come
from the author-specific phases or the broad general fallback — stores its
result set under this single key. -/
theorem cache_fingerprint_amended (oracle : SearchOracle) (now : Nat)
    (n : Str) (c d : Option Str) :
    cacheKey n none none = n ++ "_None_None_author_content".toList ∧
      cacheKey n (some "None".toList) (some "None".toList)
        = cacheKey n none none ∧
      lookupCache (cacheKey n c d)
          (search_content_by_person oracle now n c d ⟨[]⟩).2.1.cache
        = some ⟨(search_content_by_person oracle now n c d ⟨[]⟩).1, now⟩ := by
  refine ⟨?_, rfl, ?_⟩
  · simp only [cacheKey, optStr, List.append_assoc]
    congr 1
  · rw [search_content_by_person]
    dsimp only [lookupCache]
    cases c with
    | none =>
      rw [searchFresh, personPhase]
      split
      · exact lookupCache_put _ _ _
      · cases oracle (generalQuery n none d) with
        | ok rs =>
          dsimp only
          split
          · exact lookupCache_put _ _ _
          · exact lookupCache_put _ _ _
        | error e => exact lookupCache_put _ _ _
    | some comp =>
      rw [searchFresh]
      dsimp only
      split
      · exact lookupCache_put _ _ _
      · rw [personPhase]
        split
        · exact lookupCache_put _ _ _
        · cases oracle (generalQuery n (some comp) d) with
          | ok rs =>
            dsimp only
            split
            · exact lookupCache_put _ _ _
            · exact lookupCache_put _ _ _
          | error e => exact lookupCache_put _ _ _

/-!
## Claim C8: partial failure across sub-queries
-/

/-- All records collected by the company-phase sub-queries. -/
def companyRaw (oracle : SearchOracle) (name : Str) : Option Str → List RawResult
  | some comp => collectResults oracle (companyQueries name comp)
  | none => []

/-- All records collected by the person-phase sub-queries. -/
def personRaw (oracle : SearchOracle) (name : Str) (d : Option Str) :
    List RawResult :=
  collectResults oracle (personQueries name d)

/-- The general fallback query succeeds with a non-empty record list. -/
def generalOk (oracle : SearchOracle) (name : Str) (c d : Option Str) : Prop :=
  match oracle (generalQuery name c d) with
  | .ok rs => rs ≠ []
  | .error _ => False

theorem process_ne_nil_iff {rs : List RawResult} :
    process_tavily_results rs ≠ [] ↔ rs ≠ [] := by
  rw [process_tavily_results]
  simp

/-- An oracle on which the first person sub-query returns one relevant
record with an empty URL, and every other query (including the general
fallback) fails. -/
def c8Oracle : SearchOracle := fun q =>
  if q = (personQueries "Alice".toList none).headD [] then
    .ok [⟨"Alice on AI".toList, [], [], []⟩]
  else .error ()

/-- C8 (counterexample): the first person sub-query returns a record that
passes the relevance filter (but has an empty URL); every other sub-query
and the general fallback fail.  At least one sub-query returned data and a
retrieved record passes the relevance filter, yet the overall search
returns the empty result set. -/
theorem search_partial_failure_cex :
    c8Oracle ((personQueries "Alice".toList none).headD [])
        = .ok [⟨"Alice on AI".toList, [], [], []⟩] ∧
      relevantTo "Alice".toList ⟨"Alice on AI".toList, [], [], []⟩ = true ∧
      (search_content_by_person c8Oracle 0 "Alice".toList none none ⟨[]⟩).1
        = [] := by
  refine ⟨rfl, by decide, by decide⟩

theorem ne_nil_of_isEmpty_false {α : Type} {l : List α}
    (h : l.isEmpty = false) : l ≠ [] := by
  intro he
  rw [he] at h
  simp at h

theorem eq_nil_of_isEmpty_true {α : Type} {l : List α}
    (h : l.isEmpty = true) : l = [] := by
  cases l with
  | nil => rfl
  | cons x xs => simp at h

theorem isEmpty_true_of_not {α : Type} {l : List α}
    (h : ¬ ((!l.isEmpty) = true)) : l.isEmpty = true := by
  cases hie : l.isEmpty with
  | false => exact absurd (by rw [hie]; rfl) h
  | true => rfl

/-- The person-only phase returns a non-empty result set exactly when some
person sub-query yields a keepable record or the general fallback succeeds
with data. -/
theorem personPhase_ne_nil_iff (oracle : SearchOracle) (now : Nat)
    (name : Str) (c d : Option Str) (st : SearchState) (key : Str)
    (issued : List Str) :
    (personPhase oracle now name c d st key issued).1 ≠ [] ↔
      ((∃ r ∈ personRaw oracle name d, keepable name r = true) ∨
        generalOk oracle name c d) := by
  rw [personPhase]
  split
  next hne =>
    rw [Bool.not_eq_true'] at hne
    have huniq := ne_nil_of_isEmpty_false hne
    constructor
    · intro _
      exact Or.inl ((dedup_ne_nil_iff_nilseen _).mp huniq)
    · intro _
      exact process_ne_nil_iff.mpr huniq
  next hemp =>
    have hemp2 := isEmpty_true_of_not hemp
    have huniq : ¬ (∃ r ∈ personRaw oracle name d, keepable name r = true) :=
      fun hex => (dedup_ne_nil_iff_nilseen _).mpr hex (eq_nil_of_isEmpty_true hemp2)
    dsimp only
    rw [generalOk]
    generalize oracle (generalQuery name c d) = res
    cases res with
    | ok rs =>
      dsimp only
      cases hrs : rs.isEmpty with
      | true =>
        have hnil := eq_nil_of_isEmpty_true hrs
        subst hnil
        simp [huniq]
      | false =>
        rw [if_neg (by simp [hrs]), process_ne_nil_iff]
        simp [huniq, ne_nil_of_isEmpty_false hrs]
    | error e =>
      dsimp only
      simp [huniq]

/-- C8 (amended): with a cold cache, a failing sub-query is skipped and the
search returns a non-empty result set exactly when some sub-query returns
a record with a non-empty URL passing the relevance filter, or — failing
that — the general fallback query returns data.  Records with empty URLs
or failing the relevance filter never make the result non-empty on their
own. -/
theorem search_partial_failure_amended (oracle : SearchOracle) (now : Nat)
    (name : Str) (c d : Option Str) :
    (search_content_by_person oracle now name c d ⟨[]⟩).1 ≠ [] ↔
      ((∃ r ∈ companyRaw oracle name c, keepable name r = true) ∨
        (∃ r ∈ personRaw oracle name d, keepable name r = true) ∨
        generalOk oracle name c d) := by
  rw [search_content_by_person]
  dsimp only [lookupCache]
  cases c with
  | none =>
    rw [searchFresh]
    rw [personPhase_ne_nil_iff]
    have hco : ¬ ∃ r ∈ companyRaw oracle name none, keepable name r = true := by
      rintro ⟨r, hr, _⟩
      simp [companyRaw] at hr
    simp [hco]
  | some comp =>
    rw [searchFresh]
    dsimp only
    split
    next hne =>
      rw [Bool.not_eq_true'] at hne
      have huniq := ne_nil_of_isEmpty_false hne
      constructor
      · intro _
        exact Or.inl ((dedup_ne_nil_iff_nilseen _).mp huniq)
      · intro _
        exact process_ne_nil_iff.mpr huniq
    next hemp =>
      have hemp2 := isEmpty_true_of_not hemp
      have hco : ¬ (∃ r ∈ companyRaw oracle name (some comp),
          keepable name r = true) :=
        fun hex => (dedup_ne_nil_iff_nilseen _).mpr hex
          (eq_nil_of_isEmpty_true hemp2)
      rw [personPhase_ne_nil_iff]
      simp [hco]

/-!
## Claim C9: failed retrievals are cached as an empty result set
-/

theorem collectResults_allfail {oracle : SearchOracle}
    (hfail : ∀ q, oracle q = .error ()) (qs : List Str) :
    collectResults oracle qs = [] := by
  have haux : ∀ (qs : List Str) (acc : List RawResult),
      qs.foldl (fun acc q =>
        match oracle q with
        | .ok rs => if rs.isEmpty then acc else acc ++ rs
        | .error _ => acc) acc = acc := by
    intro qs
    induction qs with
    | nil => intro acc; rfl
    | cons q qs ih =>
      intro acc
      rw [List.foldl_cons, hfail q]
      exact ih acc
  exact haux qs []

theorem personPhase_allfail {oracle : SearchOracle}
    (hfail : ∀ q, oracle q = .error ()) (now : Nat) (name : Str)
    (c d : Option Str) (st : SearchState) (key : Str) (issued : List Str) :
    (personPhase oracle now name c d st key issued).1 = [] ∧
      (personPhase oracle now name c d st key issued).2.1
        = putCache key ⟨[], now⟩ st := by
  rw [personPhase, collectResults_allfail hfail]
  rw [if_neg (by simp [dedupResults])]
  dsimp only
  rw [hfail (generalQuery name c d)]
  exact ⟨rfl, rfl⟩

theorem searchFresh_allfail {oracle : SearchOracle}
    (hfail : ∀ q, oracle q = .error ()) (now : Nat) (name : Str)
    (c d : Option Str) (st : SearchState) (key : Str) :
    (searchFresh oracle now name c d st key).1 = [] ∧
      (searchFresh oracle now name c d st key).2.1
        = putCache key ⟨[], now⟩ st := by
  cases c with
  | none =>
    rw [searchFresh]
    exact personPhase_allfail hfail now name none d st key []
  | some comp =>
    rw [searchFresh, collectResults_allfail hfail]
    exact personPhase_allfail hfail now name (some comp) d st key _

/-- C9: when every retrieval attempt raises, the search returns the empty
result set and caches it under the query fingerprint with the current
timestamp; any later call with the same person, company and designation
less than an hour on (by truncated difference) is answered from the cache —
returning the empty set, leaving the state untouched and issuing no query
at all, whatever its oracle would have answered. -/
theorem search_allfail_caches_empty (oracle oracle2 : SearchOracle)
    (now now2 : Nat) (name : Str) (c d : Option Str)
    (hfail : ∀ q, oracle q = .error ()) (hfresh : now2 - now < 60) :
    (search_content_by_person oracle now name c d ⟨[]⟩).1 = [] ∧
      search_content_by_person oracle2 now2 name c d
          (search_content_by_person oracle now name c d ⟨[]⟩).2.1
        = ([], (search_content_by_person oracle now name c d ⟨[]⟩).2.1, []) := by
  have hst : (search_content_by_person oracle now name c d ⟨[]⟩).2.1
      = putCache (cacheKey name c d) ⟨[], now⟩ ⟨[]⟩ := by
    rw [search_content_by_person]
    exact (searchFresh_allfail hfail now name c d ⟨[]⟩ _).2
  constructor
  · rw [search_content_by_person]
    exact (searchFresh_allfail hfail now name c d ⟨[]⟩ _).1
  · rw [hst, search_content_by_person, lookupCache_put]
    dsimp only
    rw [if_pos hfresh]

/-- C9 (witness): with a concrete always-failing oracle, the first call
returns and caches the empty result set, and a call 59 minutes later is
served from the cache even though its oracle also fails. -/
theorem search_allfail_caches_empty_witness :
    59 - 0 < 60 ∧
      ((search_content_by_person (fun _ => .error ()) 0 "Alice".toList
          none none ⟨[]⟩).1 = [] ∧
        search_content_by_person (fun _ => .error ()) 59 "Alice".toList
            none none (search_content_by_person (fun _ => .error ()) 0
              "Alice".toList none none ⟨[]⟩).2.1
          = ([], (search_content_by_person (fun _ => .error ()) 0
              "Alice".toList none none ⟨[]⟩).2.1, [])) :=
  ⟨by decide, search_allfail_caches_empty (fun _ => .error ())
    (fun _ => .error ()) 0 59 "Alice".toList none none (fun _ => rfl)
    (by decide)⟩

/-!
## Claim C10: the rotation counter of `generate_message`
-/

/-- C10: a call with a non-empty result set advances the process-wide
rotation counter by exactly one — the increment precedes the draft call,
so it happens even when draft generation fails and no message is returned —
while a call with an empty result set leaves the counter unchanged. -/
theorem generate_rotation_counter
    (draft : Option ProcessedItem → Except Unit Str)
    (data : List ProcessedItem) (counter : Nat) (c d : Option Str)
    (pick : Nat) :
    (generate_message draft data counter c d pick).2
        = counter + (if data.isEmpty then 0 else 1) ∧
      (generate_message (fun _ => .error ()) data counter c d pick).1
        = none := by
  constructor
  · cases data with
    | nil => rfl
    | cons x xs => rfl
  · cases data with
    | nil => rfl
    | cons x xs => rfl

end GccMsgGen
